import Mathlib

/-
Verification development for the macbash rule-driven scanning and fixing
engine (Go sources: internal/rules/types.go, internal/rules/loader.go,
internal/scanner/scanner.go, internal/fixer/fixer.go, internal/cli/root.go).

The Go code is shallowly embedded: strings are Lean Strings (operated on via
their character lists; Go byte offsets coincide with character offsets for
the ASCII inputs considered here), Go maps keyed by strings become
association lists, the Go regexp engine is abstracted as a record of the
three operations the code calls (FindStringIndex, MatchString,
ReplaceAllString), and I/O is made explicit (the line source yields a list
of lines plus an optional error, the bash-syntax validator is a parameter
returning an optional error message).
-/

namespace Macbash

/-! ### Character/list string helpers (Go strings package subset) -/

/-- Whitespace as recognized by Go for the inputs at hand (ASCII subset of
unicode.IsSpace, and the character class of the regexp escape for spaces). -/
def goIsSpace (c : Char) : Bool :=
  c == ' ' || c == '\t' || c == '\n' || c == '\r' ||
  c == Char.ofNat 11 || c == Char.ofNat 12

/-- strings.TrimSpace on character lists. -/
def trimSpaceL (l : List Char) : List Char :=
  ((l.dropWhile goIsSpace).reverse.dropWhile goIsSpace).reverse

/-- strings.TrimSpace. -/
def goTrimSpace (s : String) : String :=
  String.mk (trimSpaceL s.data)

/-- strings.HasPrefix. -/
def strStartsWith (s pre : String) : Bool :=
  pre.data.isPrefixOf s.data

/-- Index of the leftmost occurrence of a literal substring
(strings.Index / regexp.FindStringIndex for a literal pattern). -/
def findSubIdx (needle : List Char) : List Char → Option Nat
  | [] => if needle.isEmpty then some 0 else none
  | c :: rest =>
    if needle.isPrefixOf (c :: rest) then some 0
    else (findSubIdx needle rest).map (· + 1)

/-- strings.ReplaceAll on character lists: replace every non-overlapping
occurrence of the (non-empty) needle, scanning left to right.  The recursion
is paced by fuel so that it reduces definitionally; every step consumes at
least one character, so fuel equal to the input length is always enough. -/
def replaceAllAux (needle repl : List Char) : Nat → List Char → List Char
  | _, [] => []
  | 0, s => s
  | fuel + 1, c :: rest =>
    if !needle.isEmpty && needle.isPrefixOf (c :: rest) then
      repl ++ replaceAllAux needle repl fuel (rest.drop (needle.length - 1))
    else
      c :: replaceAllAux needle repl fuel rest

/-- strings.ReplaceAll on character lists. -/
def replaceAllL (needle repl l : List Char) : List Char :=
  replaceAllAux needle repl l.length l

/-- The last character of a string, if any. -/
def strLastChar (s : String) : Option Char :=
  s.data.getLast?

/-- Go slice expression line[s:e] (character offsets; for the ASCII data in
this development these coincide with Go's byte offsets). -/
def strSlice (s : String) (a b : Nat) : String :=
  String.mk ((s.data.drop a).take (b - a))

/-! ### Rule model (internal/rules/types.go) -/

inductive Severity where
  | error
  | warning
  | info
deriving DecidableEq, Repr

inductive FixType where
  | replace
  | suggest
  | function
  | transform
deriving DecidableEq, Repr

structure Examples where
  Bad : String := ""
  Good : String := ""
deriving DecidableEq, Repr

structure Rule where
  ID : String
  Name : String := ""
  Description : String := ""
  Severity : Severity := Severity.warning
  Pattern : String := ""
  NegativePattern : String := ""
  ShebangMatch : String := ""
  FixType : FixType := FixType.suggest
  FixTemplate : String := ""
  WhyUnfixable : String := ""
  FixFunction : String := ""
  ExamplesField : Examples := {}
  Tags : List String := []
  References : List String := []
deriving DecidableEq, Repr

structure RuleSet where
  Version : String := "1.0"
  Rules : List Rule := []
deriving DecidableEq, Repr

structure Match where
  Rule : Rule
  File : String
  Line : Nat
  Column : Nat
  Content : String
  MatchedStr : String
  FixedStr : String := ""
deriving DecidableEq, Repr

/-! ### Merge (internal/rules/loader.go, func Merge)

The Go `seen` map from rule ID to index in `combined.Rules` is embedded as an
association list; its keys stay distinct because an entry is added only when
the ID was absent, so association-list lookup agrees with Go map lookup. -/

/-- One iteration of the inner loop of Merge: override in place if the ID was
seen, otherwise record the ID at the current length and append. -/
def mergeStep (st : List (String × Nat) × List Rule) (r : Rule) :
    List (String × Nat) × List Rule :=
  match List.lookup r.ID st.1 with
  | some idx => (st.1, st.2.set idx r)
  | none => (st.1 ++ [(r.ID, st.2.length)], st.2 ++ [r])

/-- The inner loop of Merge over one source's rules. -/
def mergeRules (st : List (String × Nat) × List Rule) (rs : List Rule) :
    List (String × Nat) × List Rule :=
  rs.foldl mergeStep st

/-- The outer loop of Merge: nil sources are skipped. -/
def mergeSetStep (st : List (String × Nat) × List Rule) (os : Option RuleSet) :
    List (String × Nat) × List Rule :=
  match os with
  | none => st
  | some rs => mergeRules st rs.Rules

/-- func Merge(sets ...*RuleSet) *RuleSet. -/
def Merge (sets : List (Option RuleSet)) : RuleSet :=
  let st := sets.foldl mergeSetStep ([], [])
  { Version := "1.0", Rules := st.2 }

/-- Merging exactly a builtin source A and an override source B, projected to
the rule list (the shape exercised by loadRules in internal/cli/root.go). -/
def mergeAB (A B : List Rule) : List Rule :=
  (Merge [some { Version := "1.0", Rules := A },
          some { Version := "1.0", Rules := B }]).Rules

/-- The ID list of a rule list. -/
def idsOf (rs : List Rule) : List String :=
  rs.map (fun r => r.ID)

/-- The association list corresponding to Go's seen map after the rules list
has been built: each ID paired with its index, in order. -/
def seenIds : Nat → List String → List (String × Nat)
  | _, [] => []
  | n, id :: ids => (id, n) :: seenIds (n + 1) ids

/-- The loop invariant of Merge: the seen map is exactly the index of every
ID in the combined list, and those IDs are pairwise distinct. -/
def MergeInv (st : List (String × Nat) × List Rule) : Prop :=
  st.1 = seenIds 0 (idsOf st.2) ∧ (idsOf st.2).Nodup

/-! ### Abstract compiled regexp

The Go regexp engine is an external library; a compiled pattern is embedded
as the record of the three operations the scanner and fixer invoke on it. -/

structure Regexp where
  findStringIndex : String → Option (Nat × Nat)
  matchString : String → Bool
  replaceAllString : String → String → String

/-- The compiled form of a literal pattern (no metacharacters): Go regexp
semantics for such a pattern is leftmost substring search, and
ReplaceAllString substitutes the template literally (the templates used with
it here contain no dollar references). -/
def substrRegexp (pat : String) : Regexp where
  findStringIndex s :=
    (findSubIdx pat.data s.data).map (fun i => (i, i + pat.data.length))
  matchString s := (findSubIdx pat.data s.data).isSome
  replaceAllString s repl := String.mk (replaceAllL pat.data repl.data s.data)

/-! ### Scanner (internal/scanner/scanner.go) -/

structure compiledRule where
  rule : Rule
  pattern : Regexp
  negative : Option Regexp

/-- Negative-pattern test: `cr.negative != nil && cr.negative.MatchString(line)`. -/
def negMatches : Option Regexp → String → Bool
  | none, _ => false
  | some neg, line => neg.matchString line

/-- The body of the per-rule loop in ScanFile: comment suppression, primary
pattern search, exclusion veto, Match construction (including the FixedStr
precomputation for replace rules with a template). -/
def evalRuleOnLine (path : String) (lineNum : Nat) (line trimmed : String)
    (cr : compiledRule) : Option Match :=
  if strStartsWith trimmed "#" && !(strStartsWith cr.rule.Pattern "^#") then
    none
  else
    match cr.pattern.findStringIndex line with
    | none => none
    | some loc =>
      if negMatches cr.negative line then none
      else
        some { Rule := cr.rule, File := path, Line := lineNum,
               Column := loc.1 + 1, Content := line,
               MatchedStr := strSlice line loc.1 loc.2,
               FixedStr :=
                 if cr.rule.FixType == FixType.replace &&
                    cr.rule.FixTemplate != "" then
                   cr.pattern.replaceAllString line cr.rule.FixTemplate
                 else "" }

/-- Per-line work of ScanFile: skip blank lines, then run every compiled rule.
The rules are ranged over from the Go map s.compiled; the list argument is
one iteration order of that map (Go leaves the order unspecified). -/
def scanLineMatches (crs : List compiledRule) (path : String) (lineNum : Nat)
    (line : String) : List Match :=
  let trimmed := goTrimSpace line
  if trimmed == "" then []
  else crs.filterMap (evalRuleOnLine path lineNum line trimmed)

/-- The scan loop of ScanFile, carrying the 1-based line counter. -/
def scanLinesFrom (crs : List compiledRule) (path : String) :
    Nat → List String → List Match
  | _, [] => []
  | n, l :: ls =>
    scanLineMatches crs path (n + 1) l ++ scanLinesFrom crs path (n + 1) ls

/-- All matches ScanFile accumulates over a file's lines. -/
def scanMatches (crs : List compiledRule) (path : String)
    (lines : List String) : List Match :=
  scanLinesFrom crs path 0 lines

/-- func (s *Scanner) ScanFile: the line source yields the lines read
successfully; if the bufio scanner then reports an error, the accumulated
matches are dropped and only the error is returned (`return nil, err`). -/
def ScanFile (crs : List compiledRule) (path : String) (lines : List String)
    (ioErr : Option String) : Except String (List Match) :=
  let found := scanMatches crs path lines
  match ioErr with
  | some e => Except.error e
  | none => Except.ok found

/-! ### Fixer (internal/fixer/fixer.go)

The regexp compiler used by getCompiledPattern is a parameter
`compile : String → Option Regexp` (the Go function caches compiled patterns
per rule ID; since compilation is a pure function the cache is semantically
transparent and is not modeled). The bash-syntax validator (an external
library call) is a parameter `validate : String → Option String` returning
an error message exactly when it rejects the text. -/

structure AppliedFix where
  Line : Nat
  RuleID : String
  Original : String
  Fixed : String
  WasSuggest : Bool := false
deriving DecidableEq, Repr

structure Result where
  Content : String := ""
  FixedCount : Nat := 0
  UnfixedCount : Nat := 0
  Fixes : List AppliedFix := []
  ValidationErr : Option String := none
deriving DecidableEq, Repr

/-- ASCII letter, the character class in the flags group of the grep regexes. -/
def isAsciiLetter (c : Char) : Bool :=
  (('a' ≤ c) && (c ≤ 'z')) || (('A' ≤ c) && (c ≤ 'Z'))

/-- The character class of the whitespace escape in Go regexp (tab, newline,
form feed, carriage return, space). -/
def isRegexSpace (c : Char) : Bool :=
  c == ' ' || c == '\t' || c == '\n' || c == '\r' || c == Char.ofNat 12

/-- The four capture groups of the fixed regexes in transformGrepPtoE:
group 1 is the command word plus following whitespace, group 2 the flags
cluster, group 3 the whitespace before the quote, group 4 the quoted pattern. -/
structure GrepGroups where
  pre : List Char
  flags : List Char
  space : List Char
  pat : List Char
deriving DecidableEq, Repr

def squote : Char := Char.ofNat 39
def dquote : Char := Char.ofNat 34

/-- Attempt to match the transformGrepPtoE regex at the start of `s` for the
quote character `q`: the command word, one or more whitespace characters, a
dash followed by a maximal letter run that must contain the uppercase P
(backtracking over the two letter stars cannot succeed otherwise, because a
shorter run would leave a letter where the following whitespace is required),
whitespace, then a q-quoted run of non-q characters.  Returns the groups and
the remainder after the closing quote. -/
def matchGrepAt (q : Char) (s : List Char) : Option (GrepGroups × List Char) :=
  if ("grep").data.isPrefixOf s then
    let rest0 := s.drop 4
    let sp1 := rest0.takeWhile isRegexSpace
    let rest1 := rest0.dropWhile isRegexSpace
    if sp1.isEmpty then none
    else
      match rest1 with
      | '-' :: rest2 =>
        let letters := rest2.takeWhile isAsciiLetter
        let rest3 := rest2.dropWhile isAsciiLetter
        if letters.contains 'P' then
          let sp2 := rest3.takeWhile isRegexSpace
          let rest4 := rest3.dropWhile isRegexSpace
          if sp2.isEmpty then none
          else
            match rest4 with
            | c :: rest5 =>
              if c == q then
                let patChars := rest5.takeWhile (fun ch => ch != q)
                let rest6 := rest5.dropWhile (fun ch => ch != q)
                match rest6 with
                | _ :: rest7 =>
                  some ({ pre := ("grep").data ++ sp1,
                          flags := '-' :: letters,
                          space := sp2, pat := patChars }, rest7)
                | [] => none
              else none
            | [] => none
        else none
      | _ => none
  else none

/-- Leftmost match of the grep regex (FindStringSubmatch): the start offset,
the groups, and the remainder after the match. -/
def grepFindFirstAux (q : Char) : List Char → Option (Nat × GrepGroups × List Char)
  | [] => none
  | c :: rest =>
    match matchGrepAt q (c :: rest) with
    | some (g, after) => some (0, g, after)
    | none => (grepFindFirstAux q rest).map (fun t => (t.1 + 1, t.2))

/-- ReplaceAllString for the grep regex with a literal replacement: replace
each non-overlapping match left to right.  Fuel bounds the recursion; one
unit per character of the input suffices because every match consumes at
least one character. -/
def grepReplaceAll (q : Char) (repl : List Char) : Nat → List Char → List Char
  | 0, s => s
  | fuel + 1, s =>
    match grepFindFirstAux q s with
    | none => s
    | some (i, _, after) => s.take i ++ repl ++ grepReplaceAll q repl fuel after

/-- Substring containment (strings.Contains). -/
def containsSub (s sub : List Char) : Bool :=
  (findSubIdx sub s).isSome

/-- The PCRE feature markers with no ERE equivalent, in source order. -/
def unfixablePatterns : List String :=
  ["\\K", "(?=", "(?!", "(?<=", "(?<!", "(?:", "(?P<",
   "\\b", "\\B", "(?i)", "(?m)", "(?s)"]

/-- func HasUnfixablePCRE. -/
def HasUnfixablePCRE (pattern : String) : Bool :=
  unfixablePatterns.any (fun p => containsSub pattern.data p.data)

/-- The replacement table of pcreToERE, in source order. -/
def ereReplacements : List (String × String) :=
  [("\\d", "[0-9]"), ("\\D", "[^0-9]"),
   ("\\w", "[[:alnum:]_]"), ("\\W", "[^[:alnum:]_]"),
   ("\\s", "[[:space:]]"), ("\\S", "[^[:space:]]")]

/-- func pcreToERE: sequential strings.ReplaceAll over the table. -/
def pcreToERE (pattern : List Char) : List Char :=
  ereReplacements.foldl (fun acc pr => replaceAllL pr.1.data pr.2.data acc) pattern

/-- strings.Replace(flags, P, E, 1): replace the first occurrence only
(the needle and replacement are single characters here). -/
def replaceFirstChar : List Char → Char → Char → List Char
  | [], _, _ => []
  | c :: rest, old, new =>
    if c == old then new :: rest else c :: replaceFirstChar rest old new

/-- The tail of transformGrepPtoE after a successful FindStringSubmatch:
feasibility check, pattern translation, flag rewrite, reassembly, and
ReplaceAllString of the whole line with the rebuilt invocation. -/
def finishGrepTransform (q : Char) (g : GrepGroups) (line : String) : String × Bool :=
  if HasUnfixablePCRE (String.mk g.pat) then (line, false)
  else
    let ere := pcreToERE g.pat
    let newFlags := replaceFirstChar g.flags 'P' 'E'
    let newGrep := g.pre ++ newFlags ++ g.space ++ [q] ++ ere ++ [q]
    let result := String.mk (grepReplaceAll q newGrep (line.data.length + 1) line.data)
    (result, result != line)

/-- func (f *Fixer) transformGrepPtoE: try the single-quote regex first,
then the double-quote one; with no match the line is returned unchanged. -/
def transformGrepPtoE (line : String) : String × Bool :=
  match grepFindFirstAux squote line.data with
  | some (_, g, _) => finishGrepTransform squote g line
  | none =>
    match grepFindFirstAux dquote line.data with
    | some (_, g, _) => finishGrepTransform dquote g line
    | none => (line, false)

/-- func (f *Fixer) applyTransform: per-rule-ID dispatch. -/
def applyTransform (line : String) (m : Match) : String × Bool :=
  if m.Rule.ID == "grep-perl-regex" || m.Rule.ID == "grep-only-matching-P" then
    transformGrepPtoE line
  else (line, false)

/-- func (f *Fixer) fixLine: iterate the line's matches (already sorted
rightmost first by the caller), threading the partially fixed line;
returns the fixed line, the applied fixes in iteration order, and the
count of unresolved matches. -/
def fixLineLoop (compile : String → Option Regexp) :
    String → List Match → String × List AppliedFix × Nat
  | fixedLine, [] => (fixedLine, [], 0)
  | fixedLine, m :: rest =>
    match m.Rule.FixType with
    | FixType.replace =>
      match compile m.Rule.Pattern with
      | none =>
        let t := fixLineLoop compile fixedLine rest
        (t.1, t.2.1, t.2.2 + 1)
      | some re =>
        let newResult := re.replaceAllString fixedLine m.Rule.FixTemplate
        if newResult != fixedLine then
          let t := fixLineLoop compile newResult rest
          (t.1, { Line := m.Line, RuleID := m.Rule.ID,
                  Original := fixedLine, Fixed := newResult } :: t.2.1, t.2.2)
        else
          let t := fixLineLoop compile fixedLine rest
          (t.1, t.2.1, t.2.2 + 1)
    | FixType.transform =>
      let r := applyTransform fixedLine m
      if r.2 then
        let t := fixLineLoop compile r.1 rest
        (t.1, { Line := m.Line, RuleID := m.Rule.ID,
                Original := fixedLine, Fixed := r.1 } :: t.2.1, t.2.2)
      else
        let t := fixLineLoop compile fixedLine rest
        (t.1, t.2.1, t.2.2 + 1)
    | _ =>
      let t := fixLineLoop compile fixedLine rest
      (t.1, t.2.1, t.2.2 + 1)

def fixLine (compile : String → Option Regexp) (line : String) (ms : List Match) :
    String × List AppliedFix × Nat :=
  fixLineLoop compile line ms

/-- Insertion into a column-descending list; Go's sort.Slice is unstable, so
any order among equal columns is admissible and this picks one. -/
def insertColDesc (m : Match) : List Match → List Match
  | [] => [m]
  | x :: xs => if x.Column ≤ m.Column then m :: x :: xs else x :: insertColDesc m xs

/-- Sort a line's matches by descending column (rightmost first). -/
def sortColDesc (ms : List Match) : List Match :=
  ms.foldr insertColDesc []

/-- The matchesByLine map of FixFile: the matches of one line, rightmost
first.  A line with no matches yields the empty list (absent map key). -/
def matchesByLine (ms : List Match) (n : Nat) : List Match :=
  sortColDesc (ms.filter (fun m => m.Line == n))

/-- bufio.ScanLines drops one trailing carriage return from a line. -/
def dropCR (l : List Char) : List Char :=
  if l.getLast? == some '\r' then l.dropLast else l

/-- The token loop of a bufio.Scanner with ScanLines over a non-empty input:
split at each newline; input ending exactly at a newline produces no final
empty token. -/
def splitGo : List Char → List Char → List (List Char)
  | cur, [] => [dropCR cur.reverse]
  | cur, c :: rest =>
    if c == '\n' then
      dropCR cur.reverse :: (if rest.isEmpty then [] else splitGo [] rest)
    else
      splitGo (c :: cur) rest

/-- The lines a bufio.Scanner yields for a file's content. -/
def splitLinesGo (s : String) : List String :=
  if s.data.isEmpty then [] else (splitGo [] s.data).map String.mk

/-- strings.Join(lines, newline). -/
def joinNl : List String → String
  | [] => ""
  | [x] => x
  | x :: y :: rest => x ++ "\n" ++ joinNl (y :: rest)

/-- The accumulator of the scan loop of FixFile. -/
structure FixAcc where
  outputLines : List String := []
  Fixes : List AppliedFix := []
  FixedCount : Nat := 0
  UnfixedCount : Nat := 0
deriving DecidableEq, Repr

/-- The scan loop of FixFile: for each line, apply fixLine when the line has
matches, otherwise copy the line through. -/
def processLines (compile : String → Option Regexp) (byLine : Nat → List Match) :
    Nat → List String → FixAcc
  | _, [] => {}
  | n, l :: ls =>
    let lineNum := n + 1
    let group := byLine lineNum
    let rest := processLines compile byLine lineNum ls
    if group.isEmpty then
      { rest with outputLines := l :: rest.outputLines }
    else
      let t := fixLine compile l group
      { outputLines := t.1 :: rest.outputLines,
        Fixes := t.2.1 ++ rest.Fixes,
        FixedCount := t.2.1.length + rest.FixedCount,
        UnfixedCount := t.2.2 + rest.UnfixedCount }

/-- func (f *Fixer) FixFile on the success path of reading the file whose
content is `original`: group and sort the matches, fix line by line, join
with newlines plus a final newline, and validate only when at least one fix
was applied. -/
def FixFile (compile : String → Option Regexp) (validate : String → Option String)
    (original : String) (ms : List Match) : Result :=
  let lines := splitLinesGo original
  let acc := processLines compile (matchesByLine ms) 0 lines
  let content := joinNl acc.outputLines ++ "\n"
  { Content := content, FixedCount := acc.FixedCount,
    UnfixedCount := acc.UnfixedCount, Fixes := acc.Fixes,
    ValidationErr := if acc.FixedCount > 0 then validate content else none }

/-! ### Per-file caller behavior (internal/cli/root.go, runFix loop body) -/

/-- What the runFix loop does for one file after FixFile returns: the
contributions to the global counters, whether writeOutput runs, and what it
writes. -/
structure CallerFileOutcome where
  fixedDelta : Int
  unfixedDelta : Int
  wrote : Bool
  writtenContent : Option String
deriving DecidableEq, Repr

/-- The body of the runFix loop for one file: the counters first absorb the
Result's counts; on a validation error the applied count is reclassified as
unresolved, the net applied delta becomes zero, and the write is skipped;
otherwise the content is written unless dry-run is on. -/
def runFixFile (r : Result) (dryRun : Bool) : CallerFileOutcome :=
  if r.ValidationErr.isSome then
    { fixedDelta := (r.FixedCount : Int) - (r.FixedCount : Int),
      unfixedDelta := (r.UnfixedCount : Int) + (r.FixedCount : Int),
      wrote := false, writtenContent := none }
  else if dryRun then
    { fixedDelta := (r.FixedCount : Int), unfixedDelta := (r.UnfixedCount : Int),
      wrote := false, writtenContent := none }
  else
    { fixedDelta := (r.FixedCount : Int), unfixedDelta := (r.UnfixedCount : Int),
      wrote := true, writtenContent := some r.Content }

/-! ### Concrete instances used by the claim theorems

Each concrete rule below uses a literal (metacharacter-free) primary or
negative pattern so that its compiled form is exactly `substrRegexp`. -/

/-- A regexp engine for literal patterns: compilation always succeeds and
yields leftmost substring search. -/
def litCompile : String → Option Regexp := fun p => some (substrRegexp p)

def echoRule : Rule :=
  { ID := "echo-escape", Name := "echo -e", Pattern := "echo -e " }

def echoCr : compiledRule :=
  { rule := echoRule, pattern := substrRegexp "echo -e ", negative := none }

/-- The here-document file of TestScanFile_HereDocSkipping, with the quoted
body simplified to stay literal: the region opener is line 2, its delimiter
closes at line 4, and lines 3 and 5 both contain the pattern. -/
def hdLines : List String :=
  ["#!/bin/bash", "cat <<EOF", "echo -e inside heredoc", "EOF",
   "echo -e real code"]

/-- The shebang-gated rule of TestScanFile_ShebangMatch. -/
def pbRule : Rule :=
  { ID := "posix-double-bracket", Name := "double bracket in sh",
    Pattern := "\\[\\[", ShebangMatch := "^#!/bin/sh",
    Severity := Severity.error }

def pbCr : compiledRule :=
  { rule := pbRule, pattern := substrRegexp "[[", negative := none }

def pbLines : List String :=
  ["#!/bin/bash", "if [[ -f foo ]]; then echo yes; fi"]

def ruleA : Rule := { ID := "a", Name := "a", Pattern := "echo" }
def ruleB : Rule := { ID := "b", Name := "b", Pattern := "hi" }
def crA : compiledRule := { rule := ruleA, pattern := substrRegexp "echo", negative := none }
def crB : compiledRule := { rule := ruleB, pattern := substrRegexp "hi", negative := none }

def realpathRule : Rule :=
  { ID := "realpath-unchecked", Name := "realpath without check",
    Pattern := "realpath ", NegativePattern := "command -v realpath" }

def rpNeg : Regexp := substrRegexp "command -v realpath"

def rpCr : compiledRule :=
  { rule := realpathRule, pattern := substrRegexp "realpath ", negative := some rpNeg }

def cmdRule : Rule := { ID := "cmd", Name := "cmd", Pattern := "command " }
def cmdCr : compiledRule := { rule := cmdRule, pattern := substrRegexp "command ", negative := none }

def vetoLine : String := "command -v realpath && realpath /some/path"

def replRule : Rule :=
  { ID := "r1", Name := "r1", Pattern := "X",
    FixType := FixType.replace, FixTemplate := "Y" }

def replMatch : Match :=
  { Rule := replRule, File := "f.sh", Line := 1, Column := 6,
    Content := "echo X", MatchedStr := "X" }

/-- A validator that rejects every text (the Validator is a black box the
Fix Engine must defer to, so any behavior of it is admissible). -/
def rejectAll : String → Option String := fun _ => some "syntax error"

def fooRule : Rule :=
  { ID := "r2", Name := "r2", Pattern := "foo",
    FixType := FixType.replace, FixTemplate := "bar" }

def fooMatch : Match :=
  { Rule := fooRule, File := "f.sh", Line := 1, Column := 1,
    Content := "foo x foo", MatchedStr := "foo" }

def grepPerlRule : Rule :=
  { ID := "grep-perl-regex", Name := "grep -P", Pattern := "grep -P ",
    FixType := FixType.transform }

def c8in1 : String :=
  String.mk (("grep -P ").data ++ [squote] ++ ("digit\\d+").data ++ [squote])

def c8out1 : String :=
  String.mk (("grep -E ").data ++ [squote] ++ ("digit[0-9]+").data ++ [squote])

def c8in2 : String :=
  String.mk (("grep -P ").data ++ [squote] ++ ("\\bfoo").data ++ [squote])

def c8match1 : Match :=
  { Rule := grepPerlRule, File := "f.sh", Line := 1, Column := 1,
    Content := c8in1, MatchedStr := "grep -P " }

def c8match2 : Match :=
  { Rule := grepPerlRule, File := "f.sh", Line := 1, Column := 1,
    Content := c8in2, MatchedStr := "grep -P " }

def ruleX1 : Rule := { ID := "x", Name := "x one", Pattern := "p1" }
def ruleY : Rule := { ID := "y", Name := "y", Pattern := "p2" }
def ruleX2 : Rule := { ID := "x", Name := "x two", Pattern := "p3" }

/-! ### Helper lemmas -/

theorem strData_append (s t : String) : (s ++ t).data = s.data ++ t.data := by
  cases s
  cases t
  rfl

theorem evalRuleOnLine_line {path : String} {n : Nat} {line trimmed : String}
    {cr : compiledRule} {m : Match}
    (h : evalRuleOnLine path n line trimmed cr = some m) : m.Line = n := by
  unfold evalRuleOnLine at h
  split at h
  · simp at h
  · split at h
    · simp at h
    · split at h
      · simp at h
      · simp only [Option.some.injEq] at h
        subst h
        rfl

theorem scanLineMatches_line {crs : List compiledRule} {path : String} {n : Nat}
    {line : String} {m : Match}
    (h : m ∈ scanLineMatches crs path n line) : m.Line = n := by
  simp only [scanLineMatches] at h
  split at h
  · simp at h
  · rw [List.mem_filterMap] at h
    obtain ⟨cr, _, hcr⟩ := h
    exact evalRuleOnLine_line hcr

theorem scanLinesFrom_line_gt {crs : List compiledRule} {path : String} {m : Match} :
    ∀ (lines : List String) (n : Nat), m ∈ scanLinesFrom crs path n lines → n < m.Line := by
  intro lines
  induction lines with
  | nil => intro n h; simp [scanLinesFrom] at h
  | cons l ls ih =>
    intro n h
    simp only [scanLinesFrom, List.mem_append] at h
    cases h with
    | inl h => have := scanLineMatches_line h; omega
    | inr h => have := ih (n + 1) h; omega

theorem scanLinesFrom_pairwise {crs : List compiledRule} {path : String} :
    ∀ (lines : List String) (n : Nat),
      List.Pairwise (fun a b : Match => a.Line ≤ b.Line) (scanLinesFrom crs path n lines) := by
  intro lines
  induction lines with
  | nil => intro n; simp [scanLinesFrom]
  | cons l ls ih =>
    intro n
    simp only [scanLinesFrom]
    rw [List.pairwise_append]
    refine ⟨?_, ih (n + 1), ?_⟩
    · apply List.pairwise_of_forall_mem_list
      intro a ha b hb
      rw [scanLineMatches_line ha, scanLineMatches_line hb]
    · intro a ha b hb
      have h1 := scanLineMatches_line ha
      have h2 := scanLinesFrom_line_gt ls (n + 1) hb
      omega

theorem scanLinesFrom_perm {crs crs2 : List compiledRule} {path : String}
    (h : List.Perm crs crs2) :
    ∀ (lines : List String) (n : Nat),
      List.Perm (scanLinesFrom crs path n lines) (scanLinesFrom crs2 path n lines) := by
  intro lines
  induction lines with
  | nil => intro n; simp [scanLinesFrom]
  | cons l ls ih =>
    intro n
    simp only [scanLinesFrom]
    refine List.Perm.append ?_ (ih (n + 1))
    simp only [scanLineMatches]
    split
    · exact List.Perm.refl _
    · exact List.Perm.filterMap _ h

theorem processLines_no_matches (compile : String → Option Regexp) :
    ∀ (lines : List String) (n : Nat),
      processLines compile (matchesByLine []) n lines
        = { outputLines := lines, Fixes := [], FixedCount := 0, UnfixedCount := 0 } := by
  intro lines
  induction lines with
  | nil => intro n; rfl
  | cons l ls ih =>
    intro n
    simp [processLines, matchesByLine, sortColDesc, ih (n + 1)]

/-! ### Claim theorems -/

/-- C2 (code bug): the scanner in src has no here-document region tracking:
scanning the here-document file of TestScanFile_HereDocSkipping with a rule
matching the pattern text produces a Match on line 3, which lies strictly
inside the quoted region opened on line 2 and closed by the delimiter line 4,
in addition to the intended match on line 6-equivalent line 5 here.  The
repository's own test (and TestDetectHereDoc, which calls a detectHereDoc
helper that does not exist in the shipped scanner.go) expects the in-region
match to be suppressed. -/
theorem c2_heredoc_lines_not_excluded :
    (scanMatches [echoCr] "f.sh" hdLines).map (fun m => m.Line) = [3, 5] := by
  decide

/-- C3 (code bug): compiledRule carries no activation field and ScanFile
never consults Rule.ShebangMatch: a rule whose activation pattern rejects
the first line (the regex for a sh shebang does not accept the bash shebang,
since the required prefix is absent) still yields a Match from the body,
where the repository's own TestScanFile_ShebangMatch expects zero matches. -/
theorem c3_shebang_gate_ignored :
    pbRule.ShebangMatch = "^#!/bin/sh"
    ∧ strStartsWith "#!/bin/bash" "#!/bin/sh" = false
    ∧ (scanMatches [pbCr] "f.sh" pbLines).map (fun m => (m.Line, m.Column)) = [(2, 4)] := by
  decide

/-- C4 (amended): matches are produced in ascending (non-strictly increasing)
line order, and two scans whose rule-map iteration orders are permutations of
one another produce the same matches up to order; full sequence-level
determinism fails because ScanFile ranges over the Go map s.compiled, whose
iteration order is unspecified. -/
theorem c4_scan_order_and_perm (crs crs2 : List compiledRule) (path : String)
    (lines : List String) :
    List.Pairwise (fun a b : Match => a.Line ≤ b.Line) (scanMatches crs path lines)
    ∧ (List.Perm crs crs2 →
        List.Perm (scanMatches crs path lines) (scanMatches crs2 path lines)) :=
  ⟨scanLinesFrom_pairwise lines 0, fun h => scanLinesFrom_perm h lines 0⟩

theorem c4_witness :
    List.Pairwise (fun a b : Match => a.Line ≤ b.Line)
      (scanMatches [crA, crB] "f.sh" ["echo hi"])
    ∧ List.Perm (scanMatches [crA, crB] "f.sh" ["echo hi"])
        (scanMatches [crB, crA] "f.sh" ["echo hi"]) :=
  ⟨(c4_scan_order_and_perm [crA, crB] [crB, crA] "f.sh" ["echo hi"]).1,
   (c4_scan_order_and_perm [crA, crB] [crB, crA] "f.sh" ["echo hi"]).2
     (List.Perm.swap crB crA [])⟩

/-- C4 counterexample: the two lists are permutations of one another, so they
describe the same rule map s.compiled, yet the two scans of the same one-line
file return different Match sequences: with two rules matching the same line
the emitted order follows the unspecified map iteration order, refuting
"two runs on the same input produce the identical sequence of Matches". -/
theorem c4_counterexample :
    List.Perm [crA, crB] [crB, crA]
    ∧ scanMatches [crA, crB] "f.sh" ["echo hi"]
        ≠ scanMatches [crB, crA] "f.sh" ["echo hi"] :=
  ⟨List.Perm.swap crB crA [], by decide⟩

/-- C6: a rule whose line matches both the primary and the exclusion pattern
contributes no Match for that line, and removing that rule from the scanned
rule list leaves every other rule's contribution on the same line unchanged. -/
theorem c6_exclusion_veto (path : String) (n : Nat) (line : String)
    (crs1 crs2 : List compiledRule) (cr : compiledRule) (neg : Regexp)
    (hneg : cr.negative = some neg)
    (_hmatch : (cr.pattern.findStringIndex line).isSome = true)
    (hveto : neg.matchString line = true) :
    evalRuleOnLine path n line (goTrimSpace line) cr = none
    ∧ scanLineMatches (crs1 ++ cr :: crs2) path n line
        = scanLineMatches (crs1 ++ crs2) path n line := by
  have h1 : evalRuleOnLine path n line (goTrimSpace line) cr = none := by
    unfold evalRuleOnLine
    split
    · rfl
    · split
      · rfl
      · rw [hneg]
        simp [negMatches, hveto]
  refine ⟨h1, ?_⟩
  simp only [scanLineMatches]
  split
  · rfl
  · simp [List.filterMap_append, List.filterMap_cons, h1]

theorem c6_witness :
    evalRuleOnLine "f.sh" 3 vetoLine (goTrimSpace vetoLine) rpCr = none
    ∧ scanLineMatches [cmdCr, rpCr] "f.sh" 3 vetoLine
        = scanLineMatches [cmdCr] "f.sh" 3 vetoLine
    ∧ scanLineMatches [cmdCr] "f.sh" 3 vetoLine ≠ [] := by
  have h := c6_exclusion_veto "f.sh" 3 vetoLine [cmdCr] [] rpCr rpNeg rfl
    (by decide) (by decide)
  exact ⟨h.1, h.2, by decide⟩

/-- C7 (amended): when the line source fails after yielding some lines, the
scan returns only the error: the matches already found for the lines read
are discarded, not returned alongside the failure. -/
theorem c7_scan_error_discards_matches (crs : List compiledRule) (path : String)
    (lines : List String) (e : String)
    (_h : scanMatches crs path lines ≠ []) :
    ScanFile crs path lines (some e) = Except.error e := rfl

theorem c7_witness :
    scanMatches [echoCr] "f.sh" ["echo -e hi"] ≠ []
    ∧ ScanFile [echoCr] "f.sh" ["echo -e hi"] (some "read error")
        = Except.error "read error" :=
  ⟨by decide,
   c7_scan_error_discards_matches [echoCr] "f.sh" ["echo -e hi"] "read error" (by decide)⟩

/-- C7 counterexample: a match was found on the line read before the failure,
yet the result of the failing scan is exactly the bare error value, which
carries no Match list at all, refuting "they are still returned to the caller
alongside the failure indication". -/
theorem c7_counterexample :
    scanMatches [echoCr] "f.sh" ["echo -e hi"]
      = [{ Rule := echoRule, File := "f.sh", Line := 1, Column := 1,
           Content := "echo -e hi", MatchedStr := "echo -e " }]
    ∧ ScanFile [echoCr] "f.sh" ["echo -e hi"] (some "boom") = Except.error "boom" :=
  ⟨by decide, rfl⟩

/-- C1 (amended): when fixes were applied and the Validator rejects the
rewritten text, FixFile reports the validation error and the caller skips the
write and re-classifies the applied count, so the net applied delta is zero
and nothing reaches the disk; the Result's Content, however, still holds the
rewritten text (it is the caller that discards it, the engine does not
restore the original into Content). -/
theorem c1_validation_rollback (compile : String → Option Regexp)
    (validate : String → Option String) (original : String) (ms : List Match)
    (d : Bool)
    (h1 : (FixFile compile validate original ms).FixedCount > 0)
    (h2 : validate (FixFile compile validate original ms).Content ≠ none) :
    (FixFile compile validate original ms).ValidationErr ≠ none
    ∧ (runFixFile (FixFile compile validate original ms) d).wrote = false
    ∧ (runFixFile (FixFile compile validate original ms) d).writtenContent = none
    ∧ (runFixFile (FixFile compile validate original ms) d).fixedDelta = 0 := by
  have hv : (FixFile compile validate original ms).ValidationErr
      = validate (FixFile compile validate original ms).Content := by
    show (if (FixFile compile validate original ms).FixedCount > 0
          then validate (FixFile compile validate original ms).Content
          else none) = _
    exact if_pos h1
  have hsome : (FixFile compile validate original ms).ValidationErr.isSome = true := by
    rw [hv]
    exact Option.isSome_iff_ne_none.mpr h2
  refine ⟨by rw [hv]; exact h2, ?_, ?_, ?_⟩ <;> simp [runFixFile, hsome]

theorem c1_witness :
    (FixFile litCompile rejectAll "echo X\n" [replMatch]).FixedCount > 0
    ∧ rejectAll (FixFile litCompile rejectAll "echo X\n" [replMatch]).Content ≠ none
    ∧ (FixFile litCompile rejectAll "echo X\n" [replMatch]).ValidationErr ≠ none
    ∧ (runFixFile (FixFile litCompile rejectAll "echo X\n" [replMatch]) false).wrote = false
    ∧ (runFixFile (FixFile litCompile rejectAll "echo X\n" [replMatch]) false).fixedDelta = 0 :=
  ⟨by decide, by decide,
   (c1_validation_rollback litCompile rejectAll "echo X\n" [replMatch] false
     (by decide) (by decide)).1,
   (c1_validation_rollback litCompile rejectAll "echo X\n" [replMatch] false
     (by decide) (by decide)).2.1,
   (c1_validation_rollback litCompile rejectAll "echo X\n" [replMatch] false
     (by decide) (by decide)).2.2.2⟩

/-- C1 counterexample: one fix was applied, the Validator rejected the
result, and yet the returned Content is the rewritten text, not the
unmodified original, refuting "the content returned to the caller equals
the unmodified original text". -/
theorem c1_counterexample :
    (FixFile litCompile rejectAll "echo X\n" [replMatch]).FixedCount = 1
    ∧ (FixFile litCompile rejectAll "echo X\n" [replMatch]).ValidationErr
        = some "syntax error"
    ∧ (FixFile litCompile rejectAll "echo X\n" [replMatch]).Content = "echo Y\n"
    ∧ (FixFile litCompile rejectAll "echo X\n" [replMatch]).Content ≠ "echo X\n" := by
  decide

/-- C9: a replace-strategy match is applied as ReplaceAllString of the whole
current line with the rule's template: the outcome is a function of the line,
the pattern, and the template alone, never of the Match's recorded column. -/
theorem c9_replace_is_replace_all (compile : String → Option Regexp)
    (line : String) (m : Match) (re : Regexp)
    (hft : m.Rule.FixType = FixType.replace)
    (hc : compile m.Rule.Pattern = some re) :
    (fixLine compile line [m]).1 = re.replaceAllString line m.Rule.FixTemplate := by
  simp only [fixLine, fixLineLoop, hft, hc]
  split
  · simp [fixLineLoop]
  · rename_i hb
    simp only [bne_iff_ne, ne_eq, not_not] at hb
    simp [fixLineLoop, hb]

/-- C9 witness: the match is recorded at column 1, yet both occurrences of
the pattern on the line are rewritten in one step. -/
theorem c9_witness : (fixLine litCompile "foo x foo" [fooMatch]).1 = "bar x bar" := by
  have h := c9_replace_is_replace_all litCompile "foo x foo" fooMatch
    (substrRegexp "foo") rfl rfl
  rw [h]
  decide

/-- C8: the grep transform rewrites a Perl-regex invocation with a digit
escape into the extended-regex equivalent with a character class, and
declines on a pattern containing a zero-width word boundary: the line is
returned unchanged and fixLine counts the match as unresolved. -/
theorem c8_transform_grep :
    transformGrepPtoE c8in1 = (c8out1, true)
    ∧ transformGrepPtoE c8in2 = (c8in2, false)
    ∧ fixLine litCompile c8in1 [c8match1]
        = (c8out1,
           [{ Line := 1, RuleID := "grep-perl-regex",
              Original := c8in1, Fixed := c8out1 }], 0)
    ∧ fixLine litCompile c8in2 [c8match2] = (c8in2, [], 1) := by
  decide

/-- C10: the Content of every FixFile Result ends with a newline; with no
matches the Content is exactly the scanned lines joined by newlines plus a
final newline, so a source whose last line lacks a trailing newline comes
back changed even though no fix was applied. -/
theorem c10_content_newline (compile : String → Option Regexp)
    (validate : String → Option String) (original : String) (ms : List Match) :
    strLastChar (FixFile compile validate original ms).Content = some '\n'
    ∧ (ms = [] → (FixFile compile validate original ms).Content
        = joinNl (splitLinesGo original) ++ "\n")
    ∧ (strLastChar original ≠ some '\n' →
        (FixFile compile validate original ms).Content ≠ original) := by
  have hcontent : (FixFile compile validate original ms).Content
      = joinNl (processLines compile (matchesByLine ms) 0 (splitLinesGo original)).outputLines
          ++ "\n" := rfl
  have hnl : ("\n" : String).data = ['\n'] := rfl
  have hlast : strLastChar (FixFile compile validate original ms).Content = some '\n' := by
    rw [hcontent]
    unfold strLastChar
    rw [strData_append, hnl, List.getLast?_concat]
  refine ⟨hlast, fun hms => ?_, fun horig heq => ?_⟩
  · rw [hcontent, hms, processLines_no_matches]
  · rw [heq] at hlast
    exact horig hlast

theorem c10_witness :
    strLastChar (FixFile litCompile rejectAll "echo hi" []).Content = some '\n'
    ∧ strLastChar "echo hi" ≠ some '\n'
    ∧ (FixFile litCompile rejectAll "echo hi" []).Content ≠ "echo hi" :=
  ⟨(c10_content_newline litCompile rejectAll "echo hi" []).1,
   by decide,
   (c10_content_newline litCompile rejectAll "echo hi" []).2.2 (by decide)⟩

/-! ### Generic list lemmas for the Merge development -/

theorem getq_lt {α : Type} : ∀ (l : List α) (i : Nat) (a : α),
    l[i]? = some a → i < l.length := by
  intro l
  induction l with
  | nil => intro i a h; simp at h
  | cons x xs ih =>
    intro i a h
    cases i with
    | zero => simp
    | succ i =>
      simp only [List.getElem?_cons_succ] at h
      have := ih i a h
      simp
      omega

theorem getq_mem {α : Type} : ∀ (l : List α) (i : Nat) (a : α),
    l[i]? = some a → a ∈ l := by
  intro l
  induction l with
  | nil => intro i a h; simp at h
  | cons x xs ih =>
    intro i a h
    cases i with
    | zero =>
      simp only [List.getElem?_cons_zero, Option.some.injEq] at h
      subst h
      exact List.mem_cons_self x xs
    | succ i =>
      simp only [List.getElem?_cons_succ] at h
      exact List.mem_cons_of_mem x (ih i a h)

theorem getq_append_left {α : Type} : ∀ (l l2 : List α) (i : Nat),
    i < l.length → (l ++ l2)[i]? = l[i]? := by
  intro l
  induction l with
  | nil => intro l2 i h; simp at h
  | cons x xs ih =>
    intro l2 i h
    cases i with
    | zero => simp
    | succ i =>
      simp only [List.cons_append, List.getElem?_cons_succ]
      exact ih l2 i (by simp at h; omega)

theorem getq_set_ne {α : Type} : ∀ (l : List α) (i j : Nat) (a : α),
    i ≠ j → (l.set i a)[j]? = l[j]? := by
  intro l
  induction l with
  | nil => intro i j a _; simp
  | cons x xs ih =>
    intro i j a h
    cases i with
    | zero =>
      cases j with
      | zero => omega
      | succ j => simp [List.set]
    | succ i =>
      cases j with
      | zero => simp [List.set]
      | succ j => simp only [List.set, List.getElem?_cons_succ]; exact ih i j a (by omega)

theorem getq_set_eq {α : Type} : ∀ (l : List α) (i : Nat) (a : α),
    i < l.length → (l.set i a)[i]? = some a := by
  intro l
  induction l with
  | nil => intro i a h; simp at h
  | cons x xs ih =>
    intro i a h
    cases i with
    | zero => simp [List.set]
    | succ i =>
      simp only [List.set, List.getElem?_cons_succ]
      exact ih i a (by simp at h; omega)

theorem set_self_of_getq {α : Type} : ∀ (l : List α) (i : Nat) (a : α),
    l[i]? = some a → l.set i a = l := by
  intro l
  induction l with
  | nil => intro i a h; simp at h
  | cons x xs ih =>
    intro i a h
    cases i with
    | zero =>
      simp only [List.getElem?_cons_zero, Option.some.injEq] at h
      subst h
      rfl
    | succ i =>
      simp only [List.getElem?_cons_succ] at h
      simp [List.set, ih i a h]

theorem map_set_comm {α β : Type} (f : α → β) :
    ∀ (l : List α) (i : Nat) (a : α), (l.set i a).map f = (l.map f).set i (f a) := by
  intro l
  induction l with
  | nil => intro i a; simp
  | cons x xs ih =>
    intro i a
    cases i with
    | zero => simp [List.set]
    | succ i => simp [List.set, ih i a]

theorem getq_map {α β : Type} (f : α → β) : ∀ (l : List α) (i : Nat),
    (l.map f)[i]? = (l[i]?).map f := by
  intro l
  induction l with
  | nil => intro i; simp
  | cons x xs ih =>
    intro i
    cases i with
    | zero => simp
    | succ i => simp only [List.map_cons, List.getElem?_cons_succ]; exact ih i

/-! ### seen-map lemmas -/

theorem seenIds_concat : ∀ (ids : List String) (n : Nat) (id : String),
    seenIds n (ids ++ [id]) = seenIds n ids ++ [(id, n + ids.length)] := by
  intro ids
  induction ids with
  | nil => intro n id; simp [seenIds]
  | cons a as ih =>
    intro n id
    have harith : n + 1 + as.length = n + (as.length + 1) := by omega
    show (a, n) :: seenIds (n + 1) (as ++ [id])
        = ((a, n) :: seenIds (n + 1) as) ++ [(id, n + (as.length + 1))]
    rw [ih (n + 1), harith]
    rfl

theorem lookup_seenIds_none : ∀ (ids : List String) (n : Nat) (id : String),
    id ∉ ids → List.lookup id (seenIds n ids) = none := by
  intro ids
  induction ids with
  | nil => intro n id _; rfl
  | cons a as ih =>
    intro n id h
    simp only [List.mem_cons, not_or] at h
    have hne : (id == a) = false := beq_eq_false_iff_ne.mpr h.1
    simp [seenIds, List.lookup, hne, ih (n + 1) id h.2]

theorem lookup_seenIds_isSome_of_mem : ∀ (ids : List String) (n : Nat) (id : String),
    id ∈ ids → (List.lookup id (seenIds n ids)).isSome = true := by
  intro ids
  induction ids with
  | nil => intro n id h; simp at h
  | cons a as ih =>
    intro n id h
    by_cases he : id = a
    · subst he
      simp [seenIds, List.lookup]
    · have hne : (id == a) = false := beq_eq_false_iff_ne.mpr he
      have hmem : id ∈ as := by
        rcases List.mem_cons.mp h with h1 | h1
        · exact absurd h1 he
        · exact h1
      simp [seenIds, List.lookup, hne, ih (n + 1) id hmem]

theorem lookup_seenIds_mem : ∀ (ids : List String) (n : Nat) (id : String) (j : Nat),
    List.lookup id (seenIds n ids) = some j →
    n ≤ j ∧ j - n < ids.length ∧ ids[j - n]? = some id := by
  intro ids
  induction ids with
  | nil => intro n id j h; simp [seenIds, List.lookup] at h
  | cons a as ih =>
    intro n id j h
    by_cases he : id = a
    · subst he
      simp [seenIds, List.lookup] at h
      subst h
      simp
    · have hne : (id == a) = false := beq_eq_false_iff_ne.mpr he
      simp only [seenIds, List.lookup, hne] at h
      obtain ⟨h1, h2, h3⟩ := ih (n + 1) id j h
      have hj : j - n = (j - (n + 1)) + 1 := by omega
      refine ⟨by omega, by simp; omega, ?_⟩
      rw [hj]
      simpa using h3

theorem lookup_seenIds_of_getq : ∀ (ids : List String) (n i : Nat) (id : String),
    ids.Nodup → ids[i]? = some id → List.lookup id (seenIds n ids) = some (n + i) := by
  intro ids
  induction ids with
  | nil => intro n i id _ h; simp at h
  | cons a as ih =>
    intro n i id hnodup h
    cases i with
    | zero =>
      simp only [List.getElem?_cons_zero, Option.some.injEq] at h
      subst h
      simp [seenIds, List.lookup]
    | succ i =>
      simp only [List.getElem?_cons_succ] at h
      have hmem : id ∈ as := getq_mem as i id h
      have hne : (id == a) = false := by
        refine beq_eq_false_iff_ne.mpr ?_
        intro he
        subst he
        exact (List.nodup_cons.mp hnodup).1 hmem
      have := ih (n + 1) i id (List.nodup_cons.mp hnodup).2 h
      simp only [seenIds, List.lookup, hne, this]
      congr 1
      omega

/-! ### Merge invariant lemmas -/

theorem mergeStep_inv {st : List (String × Nat) × List Rule} {r : Rule}
    (h : MergeInv st) : MergeInv (mergeStep st r) := by
  obtain ⟨hseen, hnodup⟩ := h
  unfold mergeStep
  cases hl : List.lookup r.ID st.1 with
  | none =>
    have hnm : r.ID ∉ idsOf st.2 := by
      intro hmem
      have := lookup_seenIds_isSome_of_mem (idsOf st.2) 0 r.ID hmem
      rw [← hseen, hl] at this
      simp at this
    constructor
    · show st.1 ++ [(r.ID, st.2.length)] = seenIds 0 (idsOf (st.2 ++ [r]))
      have : idsOf (st.2 ++ [r]) = idsOf st.2 ++ [r.ID] := by simp [idsOf]
      rw [this, seenIds_concat, ← hseen]
      simp [idsOf]
    · show (idsOf (st.2 ++ [r])).Nodup
      have : idsOf (st.2 ++ [r]) = idsOf st.2 ++ [r.ID] := by simp [idsOf]
      rw [this]
      simp [List.nodup_append, hnodup, hnm]
  | some idx =>
    have hmem := lookup_seenIds_mem (idsOf st.2) 0 r.ID idx (by rw [← hseen]; exact hl)
    have hids : (idsOf st.2)[idx]? = some r.ID := by simpa using hmem.2.2
    have hset : idsOf (st.2.set idx r) = idsOf st.2 := by
      show (st.2.set idx r).map (fun r => r.ID) = idsOf st.2
      rw [map_set_comm]
      exact set_self_of_getq _ idx r.ID hids
    constructor
    · show st.1 = seenIds 0 (idsOf (st.2.set idx r))
      rw [hset]
      exact hseen
    · show (idsOf (st.2.set idx r)).Nodup
      rw [hset]
      exact hnodup

theorem mergeRules_cons (st : List (String × Nat) × List Rule) (r : Rule) (rs : List Rule) :
    mergeRules st (r :: rs) = mergeRules (mergeStep st r) rs := rfl

theorem mergeRules_inv : ∀ (rs : List Rule) (st : List (String × Nat) × List Rule),
    MergeInv st → MergeInv (mergeRules st rs) := by
  intro rs
  induction rs with
  | nil => intro st h; exact h
  | cons r rs ih =>
    intro st h
    rw [mergeRules_cons]
    exact ih _ (mergeStep_inv h)

theorem mergeRules_all_new : ∀ (as : List Rule) (st : List (String × Nat) × List Rule),
    MergeInv st → (∀ a ∈ as, a.ID ∉ idsOf st.2) → (idsOf as).Nodup →
    (mergeRules st as).2 = st.2 ++ as := by
  intro as
  induction as with
  | nil => intro st _ _ _; simp [mergeRules]
  | cons a as ih =>
    intro st hinv hdisj hnodup
    have hna : a.ID ∉ idsOf st.2 := hdisj a (List.mem_cons_self a as)
    have hl : List.lookup a.ID st.1 = none := by
      rw [hinv.1]
      exact lookup_seenIds_none _ 0 _ hna
    have hstep : mergeStep st a = (st.1 ++ [(a.ID, st.2.length)], st.2 ++ [a]) := by
      unfold mergeStep
      rw [hl]
    have hinv2 : MergeInv (mergeStep st a) := mergeStep_inv hinv
    have hnodup2 : (idsOf as).Nodup := by
      simpa [idsOf] using (List.nodup_cons.mp (by simpa [idsOf] using hnodup)).2
    have hdisj2 : ∀ b ∈ as, b.ID ∉ idsOf (mergeStep st a).2 := by
      intro b hb
      rw [hstep]
      have h1 : b.ID ∉ idsOf st.2 := hdisj b (List.mem_cons_of_mem a hb)
      have h2 : b.ID ≠ a.ID := by
        intro he
        have : a.ID ∈ idsOf as := by
          rw [← he]
          exact List.mem_map_of_mem (fun r => r.ID) hb
        exact (List.nodup_cons.mp (by simpa [idsOf] using hnodup)).1 this
      intro hmem2
      have heq : idsOf (st.2 ++ [a]) = idsOf st.2 ++ [a.ID] := by simp [idsOf]
      rw [heq] at hmem2
      rcases List.mem_append.mp hmem2 with h | h
      · exact h1 h
      · exact h2 (by simpa using h)
    rw [mergeRules_cons, ih _ hinv2 hdisj2 hnodup2, hstep]
    simp

theorem mergeStep_preserves_at (st : List (String × Nat) × List Rule) (b : Rule)
    (i : Nat) (x : Rule) (hinv : MergeInv st) (hx : st.2[i]? = some x)
    (hne : b.ID ≠ x.ID) : (mergeStep st b).2[i]? = some x := by
  unfold mergeStep
  cases hl : List.lookup b.ID st.1 with
  | none =>
    show (st.2 ++ [b])[i]? = some x
    rw [getq_append_left _ _ i (getq_lt _ i x hx)]
    exact hx
  | some idx =>
    show (st.2.set idx b)[i]? = some x
    have hmem := lookup_seenIds_mem (idsOf st.2) 0 b.ID idx (by rw [← hinv.1]; exact hl)
    have hidx : (idsOf st.2)[idx]? = some b.ID := by simpa using hmem.2.2
    have hxid : (idsOf st.2)[i]? = some x.ID := by
      show ((st.2).map (fun r => r.ID))[i]? = some x.ID
      rw [getq_map]
      rw [hx]
      rfl
    have hii : idx ≠ i := by
      intro he
      subst he
      rw [hidx] at hxid
      exact hne (by simpa using hxid)
    rw [getq_set_ne _ idx i b hii]
    exact hx

theorem mergeRules_preserves_at : ∀ (bs : List Rule)
    (st : List (String × Nat) × List Rule) (i : Nat) (x : Rule),
    MergeInv st → st.2[i]? = some x → (∀ b ∈ bs, b.ID ≠ x.ID) →
    (mergeRules st bs).2[i]? = some x := by
  intro bs
  induction bs with
  | nil => intro st i x _ hx _; exact hx
  | cons b bs ih =>
    intro st i x hinv hx hdiff
    rw [mergeRules_cons]
    exact ih _ i x (mergeStep_inv hinv)
      (mergeStep_preserves_at st b i x hinv hx (hdiff b (List.mem_cons_self b bs)))
      (fun b2 hb2 => hdiff b2 (List.mem_cons_of_mem b hb2))

theorem mergeRules_override : ∀ (bs : List Rule)
    (st : List (String × Nat) × List Rule) (i : Nat) (x b : Rule),
    MergeInv st → st.2[i]? = some x → b ∈ bs → b.ID = x.ID → (idsOf bs).Nodup →
    (mergeRules st bs).2[i]? = some b := by
  intro bs
  induction bs with
  | nil => intro st i x b _ _ hb; simp at hb
  | cons b0 bs ih =>
    intro st i x b hinv hx hb hid hnodup
    have hnodup2 : (idsOf bs).Nodup :=
      (List.nodup_cons.mp (by simpa [idsOf] using hnodup)).2
    have hb0nm : b0.ID ∉ idsOf bs :=
      (List.nodup_cons.mp (by simpa [idsOf] using hnodup)).1
    rcases List.mem_cons.mp hb with he | hmem
    · subst he
      have hxid : (idsOf st.2)[i]? = some x.ID := by
        show ((st.2).map (fun r => r.ID))[i]? = some x.ID
        rw [getq_map, hx]
        rfl
      have hl : List.lookup b.ID st.1 = some i := by
        rw [hinv.1, hid]
        have := lookup_seenIds_of_getq (idsOf st.2) 0 i x.ID hinv.2 hxid
        simpa using this
      have hstep : (mergeStep st b).2 = st.2.set i b := by
        unfold mergeStep
        rw [hl]
      have hlen : i < st.2.length := getq_lt _ i x hx
      have hget : (mergeStep st b).2[i]? = some b := by
        rw [hstep]
        exact getq_set_eq _ i b hlen
      rw [mergeRules_cons]
      refine mergeRules_preserves_at bs _ i b (mergeStep_inv hinv) hget ?_
      intro b2 hb2 he2
      exact hb0nm (he2 ▸ List.mem_map_of_mem (fun r => r.ID) hb2)
    · have hne : b0.ID ≠ x.ID := by
        intro he
        have : b.ID ∈ idsOf bs := List.mem_map_of_mem (fun r => r.ID) hmem
        rw [hid, ← he] at this
        exact hb0nm this
      rw [mergeRules_cons]
      exact ih _ i x b (mergeStep_inv hinv)
        (mergeStep_preserves_at st b0 i x hinv hx hne) hmem hid hnodup2

theorem mergeRules_mem_ids : ∀ (bs : List Rule)
    (st : List (String × Nat) × List Rule), MergeInv st →
    ∀ id, id ∈ idsOf (mergeRules st bs).2 ↔ id ∈ idsOf st.2 ∨ id ∈ idsOf bs := by
  intro bs
  induction bs with
  | nil => intro st _ id; simp [mergeRules, idsOf]
  | cons b bs ih =>
    intro st hinv id
    rw [mergeRules_cons, ih _ (mergeStep_inv hinv) id]
    cases hl : List.lookup b.ID st.1 with
    | none =>
      have hstep : (mergeStep st b).2 = st.2 ++ [b] := by
        unfold mergeStep
        rw [hl]
      have heq : idsOf (st.2 ++ [b]) = idsOf st.2 ++ [b.ID] := by simp [idsOf]
      have heq2 : idsOf (b :: bs) = b.ID :: idsOf bs := rfl
      rw [hstep, heq, heq2]
      simp only [List.mem_append, List.mem_singleton, List.mem_cons]
      tauto
    | some idx =>
      have hmem := lookup_seenIds_mem (idsOf st.2) 0 b.ID idx (by rw [← hinv.1]; exact hl)
      have hidx : (idsOf st.2)[idx]? = some b.ID := by simpa using hmem.2.2
      have hbmem : b.ID ∈ idsOf st.2 := getq_mem _ idx b.ID hidx
      have hstep : (mergeStep st b).2 = st.2.set idx b := by
        unfold mergeStep
        rw [hl]
      have hset : idsOf (st.2.set idx b) = idsOf st.2 := by
        show (st.2.set idx b).map (fun r => r.ID) = idsOf st.2
        rw [map_set_comm]
        exact set_self_of_getq _ idx b.ID hidx
      have heq2 : idsOf (b :: bs) = b.ID :: idsOf bs := rfl
      rw [hstep, hset, heq2]
      simp only [List.mem_cons]
      constructor
      · tauto
      · rintro (h | h | h)
        · exact Or.inl h
        · exact Or.inl (h ▸ hbmem)
        · exact Or.inr h

/-! ### C5 -/

/-- C5: merging source A then source B (both with internally distinct IDs),
where B's rule b carries the same ID as the rule at position i of A: the
merged list holds b at exactly position i (override in place, not appended),
its IDs are pairwise distinct and are exactly the IDs occurring in A and B,
and hence its size is the number of distinct IDs across A and B. -/
theorem c5_merge_override (A B : List Rule) (i : Nat) (x b : Rule)
    (hA : (idsOf A).Nodup) (hB : (idsOf B).Nodup)
    (hx : A[i]? = some x) (hb : b ∈ B) (hid : b.ID = x.ID) :
    (mergeAB A B)[i]? = some b
    ∧ (idsOf (mergeAB A B)).Nodup
    ∧ (∀ id, id ∈ idsOf (mergeAB A B) ↔ id ∈ idsOf (A ++ B))
    ∧ (mergeAB A B).length = (idsOf (A ++ B)).toFinset.card := by
  have h0 : MergeInv ([], []) := ⟨rfl, List.nodup_nil⟩
  have hm : mergeAB A B = (mergeRules (mergeRules ([], []) A) B).2 := rfl
  have hA1 : (mergeRules ([], []) A).2 = A := by
    have := mergeRules_all_new A ([], []) h0 (by intro a _; simp [idsOf]) hA
    simpa using this
  have hAinv : MergeInv (mergeRules ([], []) A) := mergeRules_inv A ([], []) h0
  have hxA : (mergeRules ([], []) A).2[i]? = some x := by rw [hA1]; exact hx
  have hfinv : MergeInv (mergeRules (mergeRules ([], []) A) B) :=
    mergeRules_inv B _ hAinv
  have hget : (mergeAB A B)[i]? = some b := by
    rw [hm]
    exact mergeRules_override B _ i x b hAinv hxA hb hid hB
  have hnodup : (idsOf (mergeAB A B)).Nodup := by
    rw [hm]
    exact hfinv.2
  have hmem : ∀ id, id ∈ idsOf (mergeAB A B) ↔ id ∈ idsOf (A ++ B) := by
    intro id
    rw [hm, mergeRules_mem_ids B _ hAinv id, hA1]
    simp [idsOf]
  refine ⟨hget, hnodup, hmem, ?_⟩
  have hfs : (idsOf (mergeAB A B)).toFinset = (idsOf (A ++ B)).toFinset := by
    apply Finset.ext
    intro id
    simp only [List.mem_toFinset]
    exact hmem id
  calc (mergeAB A B).length
      = (idsOf (mergeAB A B)).length := by simp [idsOf]
    _ = (idsOf (mergeAB A B)).toFinset.card := (List.toFinset_card_of_nodup hnodup).symm
    _ = (idsOf (A ++ B)).toFinset.card := by rw [hfs]

theorem c5_witness :
    (mergeAB [ruleX1, ruleY] [ruleX2])[0]? = some ruleX2
    ∧ (mergeAB [ruleX1, ruleY] [ruleX2]).length = 2 :=
  ⟨(c5_merge_override [ruleX1, ruleY] [ruleX2] 0 ruleX1 ruleX2
      (by decide) (by decide) (by decide) (by decide) (by decide)).1,
   by decide⟩

end Macbash
